import Mathlib

/-!
Verification development for `src/registry.py` of the fonti-registry
repository.  The script scans a tree of font package directories,
resolves a description HTML file per font, extracts the first GitHub
link from it, reads `name` and `display_name` from a line-oriented
metadata file, and accumulates the results into a registry mapping
keyed by the font directory name.

The embedding models the filesystem abstractly: a structure `FS`
records, for each path, whether it exists, its directory entries (name
plus directory flag, in iteration order), the parsed anchors of the
HTML file stored there, and the text lines a reader obtains from it
before a possible I/O exception.  Python's `dict` is modelled as an
association list with replace-in-place insertion, which matches dict
assignment exactly when keys are unique (an invariant proved below).
-/

/-- A filesystem path, as the list of its components below the script's
directory (so `BASE_PATH` contributes the single component
`"google-fonts"`). -/
abbrev FsPath := List String

/-- An anchor element of a parsed HTML document, carrying its optional
hyperlink-target (`href`) attribute.  `BeautifulSoup.find_all("a", href=True)`
returns, in document order, precisely the anchors whose `href` is present. -/
structure Anchor where
  href : Option String
deriving DecidableEq

/-- A directory entry as produced by `Path.iterdir`: its name and whether
the entry is itself a directory. -/
structure DirEntry where
  name : String
  isDir : Bool
deriving DecidableEq

/-- Abstract filesystem state.  `lines p` is the list of text lines a
line-by-line reader of the file at `p` successfully obtains; `readErr p`
records whether an I/O exception interrupts that read afterwards (so
`lines p` are exactly the lines accumulated before the failure).
`htmlDoc p` is the parsed anchor list of the HTML document stored at `p`. -/
structure FS where
  pathExists : FsPath → Bool
  entries : FsPath → List DirEntry
  htmlDoc : FsPath → List Anchor
  lines : FsPath → List String
  readErr : FsPath → Bool

/-- Path of the rich article variant: `<base>/<dir>/<font>/article/ARTICLE.en_us.html`. -/
def articlePath (dir_name font_name : String) : FsPath :=
  ["google-fonts", dir_name, font_name, "article", "ARTICLE.en_us.html"]

/-- Path of the flat description variant: `<base>/<dir>/<font>/DESCRIPTION.en_us.html`. -/
def descPath (dir_name font_name : String) : FsPath :=
  ["google-fonts", dir_name, font_name, "DESCRIPTION.en_us.html"]

/-- Path of a font's metadata file: `<base>/<dir>/<font>/METADATA.pb`. -/
def metadataPath (dir_name font_name : String) : FsPath :=
  ["google-fonts", dir_name, font_name, "METADATA.pb"]

/-- Path of a category directory: `<base>/<dir>`. -/
def catPath (dir_name : String) : FsPath := ["google-fonts", dir_name]

/-- The fixed category list `DIRS = ["ofl", "apache", "ufl"]`. -/
def DIRS : List String := ["ofl", "apache", "ufl"]

/-- Embedding of `get_html_path`: first try the article file, then the
description file, returning `none` when neither exists. -/
def get_html_path (fs : FS) (dir_name font_name : String) : Option FsPath :=
  if fs.pathExists (articlePath dir_name font_name) then
    some (articlePath dir_name font_name)
  else if fs.pathExists (descPath dir_name font_name) then
    some (descPath dir_name font_name)
  else
    none

/-- Contiguous-sublist test on character lists. -/
def isInfixOfCL (pat : List Char) : List Char → Bool
  | [] => pat.isEmpty
  | c :: t => List.isPrefixOf pat (c :: t) || isInfixOfCL pat t

/-- Substring containment test, `pat in s` of Python. -/
def strContains (s pat : String) : Bool := isInfixOfCL pat.data s.data

/-- Pipeline of `extract_github_link` on the parsed document: take the
`href` of every anchor that has one, keep those containing "github.com",
and return the first, if any. -/
def extractFromDoc (doc : List Anchor) : Option String :=
  ((doc.filterMap Anchor.href).filter (fun h => strContains h "github.com")).head?

/-- Embedding of `extract_github_link`: read and parse the HTML file at
`file_path`, then run the extraction pipeline. -/
def extract_github_link (fs : FS) (file_path : FsPath) : Option String :=
  extractFromDoc (fs.htmlDoc file_path)

/-- Test of `line.startswith(f"{entry}:")`. -/
def lineMatch (entry line : String) : Bool :=
  List.isPrefixOf (entry ++ ":").data line.data

/-- Embedding of `line.split(":", 1)[1]` for a line containing a colon:
everything after the first colon. -/
def afterFirstColon (s : String) : String :=
  String.mk ((s.data.dropWhile (fun c => c != ':')).drop 1)

/-- Drop from both ends of `l` every character satisfying `p`, as Python's
`str.strip` family does. -/
def stripBothChars (p : Char → Bool) (l : List Char) : List Char :=
  ((l.dropWhile p).reverse.dropWhile p).reverse

/-- Embedding of Python `str.strip()`: remove whitespace from both ends. -/
def pyStrip (s : String) : String :=
  String.mk (stripBothChars Char.isWhitespace s.data)

/-- Embedding of Python `str.strip('"')`: remove every leading and
trailing double-quote character. -/
def pyStripQuotes (s : String) : String :=
  String.mk (stripBothChars (fun c => c == '"') s.data)

/-- Value recorded from a matching metadata line:
`line.split(":", 1)[1].strip().strip('"')`. -/
def extractValue (line : String) : String :=
  pyStripQuotes (pyStrip (afterFirstColon line))

/-- Effect of one metadata line on the value dictionary: the inner
`for entry in entries` loop with its `break` records, for the first
requested field whose name followed by a colon prefixes the line, the
extracted value; a line matching no field records nothing. -/
def lineKV (entries : List String) (line : String) : Option (String × String) :=
  (entries.find? (fun e => lineMatch e line)).map (fun e => (e, extractValue line))

/-- Python dict assignment `m[k] = v` on an association list: replace the
value at the first occurrence of `k` in place, or append a new binding. -/
def dictInsert {β : Type} : List (String × β) → String → β → List (String × β)
  | [], k, v => [(k, v)]
  | p :: t, k, v => if p.1 == k then (k, v) :: t else p :: dictInsert t k v

/-- One fold step over an item that may contribute a key-value binding. -/
def stepKV {α β : Type} (f : α → Option (String × β)) (m : List (String × β)) (a : α) :
    List (String × β) :=
  match f a with
  | some kv => dictInsert m kv.1 kv.2
  | none => m

/-- The per-line step of `get_metadata_entries`'s reading loop. -/
def mdStep (entries : List String) : List (String × String) → String → List (String × String) :=
  stepKV (lineKV entries)

/-- Embedding of `get_metadata_entries`: all-empty defaults when the path
does not exist; otherwise fold the reading loop over the lines obtained
(an exception merely truncates that list) and read each requested field
out of the accumulated dictionary, defaulting to the empty string. -/
def get_metadata_entries (fs : FS) (metadata_path : FsPath) (entries : List String) :
    List String :=
  if fs.pathExists metadata_path then
    entries.map (fun e =>
      (((fs.lines metadata_path).foldl (mdStep entries) []).lookup e).getD "")
  else
    List.replicate entries.length ""

/-- One record of the output registry: the three string fields stored for
every font. -/
structure FontEntry where
  name : String
  display_name : String
  link : String
deriving DecidableEq

/-- Body of `main`'s inner loop for one font directory: resolve the HTML
path, extract a link (empty string when there is no file or no matching
anchor), read `name` and `display_name` from the metadata file. -/
def processFont (fs : FS) (dir_name font_name : String) : FontEntry :=
  let link : String :=
    match get_html_path fs dir_name font_name with
    | some p => (extract_github_link fs p).getD ""
    | none => ""
  let values := get_metadata_entries fs (metadataPath dir_name font_name) ["name", "display_name"]
  { name := values.getD 0 "", display_name := values.getD 1 "", link := link }

/-- Contribution of one directory entry of a category to the registry:
non-directories contribute nothing, a directory contributes the entry
built by `processFont` under its name. -/
def fontKV (fs : FS) (dir_name : String) (e : DirEntry) : Option (String × FontEntry) :=
  if e.isDir then some (e.name, processFont fs dir_name e.name) else none

/-- The per-entry step of `main`'s inner loop. -/
def fontStep (fs : FS) (dir_name : String) :
    List (String × FontEntry) → DirEntry → List (String × FontEntry) :=
  stepKV (fontKV fs dir_name)

/-- Embedding of `main`'s treatment of one category: a missing category
directory is skipped, otherwise every directory entry is processed in
iteration order. -/
def processCategory (fs : FS) (m : List (String × FontEntry)) (dir_name : String) :
    List (String × FontEntry) :=
  if fs.pathExists (catPath dir_name) then
    (fs.entries (catPath dir_name)).foldl (fontStep fs dir_name) m
  else
    m

/-- Embedding of `main`'s registry construction: fold the categories of
`DIRS` in order, starting from the empty mapping.  (Serialisation of the
result to JSON is not modelled; the claims are about the mapping.) -/
def buildRegistry (fs : FS) : List (String × FontEntry) :=
  DIRS.foldl (processCategory fs) []

/-- A category directory exists and holds a subdirectory of the given name. -/
def hasFontDir (fs : FS) (dir_name font_name : String) : Bool :=
  fs.pathExists (catPath dir_name) &&
    (fs.entries (catPath dir_name)).any (fun e => e.isDir && e.name == font_name)

/-- Modelled from the spec (refinement target for the Link Extractor):
return the target of the first anchor in document order that carries a
hyperlink-target attribute whose string contains "github.com", and the
empty result when no anchor qualifies. -/
def specFirstGithubHref : List Anchor → Option String
  | [] => none
  | a :: rest =>
    match a.href with
    | some h => if strContains h "github.com" then some h else specFirstGithubHref rest
    | none => specFirstGithubHref rest

/-! Dictionary and fold lemmas. -/

theorem lookup_dictInsert_self {β : Type} (m : List (String × β)) (k : String) (v : β) :
    (dictInsert m k v).lookup k = some v := by
  induction m with
  | nil => simp [dictInsert, List.lookup]
  | cons p t ih =>
    by_cases h : p.1 = k
    · simp [dictInsert, h, List.lookup]
    · have hb : (p.1 == k) = false := beq_eq_false_iff_ne.mpr h
      have hb' : (k == p.1) = false := beq_eq_false_iff_ne.mpr (Ne.symm h)
      simp [dictInsert, hb, List.lookup, hb', ih]

theorem lookup_dictInsert_ne {β : Type} (m : List (String × β)) (k k' : String) (v : β)
    (h : k' ≠ k) : (dictInsert m k v).lookup k' = m.lookup k' := by
  have hb : (k' == k) = false := beq_eq_false_iff_ne.mpr h
  induction m with
  | nil => simp [dictInsert, List.lookup, hb]
  | cons p t ih =>
    by_cases hp : p.1 = k
    · subst hp
      simp [dictInsert, List.lookup, hb, ih]
    · have hpb : (p.1 == k) = false := beq_eq_false_iff_ne.mpr hp
      simp [dictInsert, hpb, List.lookup, ih]

theorem lookup_foldl_stepKV {α β : Type} (f : α → Option (String × β)) (k : String) :
    ∀ (l : List α) (m : List (String × β)),
      ((l.foldl (stepKV f) m).lookup k) =
        match ((l.filterMap f).filter (fun kv => kv.1 == k)).getLast? with
        | some kv => some kv.2
        | none => m.lookup k := by
  intro l
  induction l with
  | nil => intro m; simp
  | cons a t ih =>
    intro m
    simp only [List.foldl_cons, List.filterMap_cons]
    cases hfa : f a with
    | none => simpa [stepKV, hfa] using ih m
    | some kv =>
      by_cases hk : (kv.1 == k) = true
      · have hkeq : kv.1 = k := eq_of_beq hk
        subst hkeq
        simp only [stepKV, hfa, List.filter_cons, hk, if_pos]
        cases hrest : (t.filterMap f).filter (fun p => p.1 == kv.1) with
        | nil =>
          have hih := ih (dictInsert m kv.1 kv.2)
          rw [hrest] at hih
          simp only [List.getLast?_nil] at hih
          simp only [List.getLast?_singleton]
          rw [hih, lookup_dictInsert_self]
        | cons b l2 =>
          have hih := ih (dictInsert m kv.1 kv.2)
          rw [hrest] at hih
          rw [List.getLast?_cons_cons, hih]
          cases hgl : (b :: l2).getLast? with
          | none => simp [List.getLast?_eq_none_iff] at hgl
          | some c => simp [hgl]
      · have hkb : (kv.1 == k) = false := by simpa using hk
        have hne : k ≠ kv.1 := fun h => by simp [h] at hkb
        simp only [stepKV, hfa, List.filter_cons, hkb, Bool.false_eq_true, if_false]
        have hih := ih (dictInsert m kv.1 kv.2)
        rw [hih]
        cases hgl : ((t.filterMap f).filter (fun kv => kv.1 == k)).getLast? with
        | none => simp [lookup_dictInsert_ne _ _ _ _ hne]
        | some c => simp

theorem keys_dictInsert {β : Type} (m : List (String × β)) (k : String) (v : β) :
    (dictInsert m k v).map Prod.fst =
      if k ∈ m.map Prod.fst then m.map Prod.fst else m.map Prod.fst ++ [k] := by
  induction m with
  | nil => simp [dictInsert]
  | cons p t ih =>
    by_cases h : p.1 = k
    · subst h
      simp [dictInsert]
    · have hb : (p.1 == k) = false := beq_eq_false_iff_ne.mpr h
      have h' : ¬ k = p.1 := Ne.symm h
      by_cases hmem : k ∈ t.map Prod.fst
      · simp [dictInsert, hb, ih, hmem, h']
      · simp [dictInsert, hb, ih, hmem, h']

theorem nodup_keys_dictInsert {β : Type} (m : List (String × β)) (k : String) (v : β)
    (h : (m.map Prod.fst).Nodup) : ((dictInsert m k v).map Prod.fst).Nodup := by
  rw [keys_dictInsert]
  by_cases hmem : k ∈ m.map Prod.fst
  · simpa [hmem] using h
  · simp only [hmem, if_false]
    rw [List.nodup_append]
    refine ⟨h, List.nodup_singleton k, ?_⟩
    intro a ha hak
    simp only [List.mem_singleton] at hak
    exact hmem (hak ▸ ha)

theorem nodup_keys_foldl_stepKV {α β : Type} (f : α → Option (String × β)) :
    ∀ (l : List α) (m : List (String × β)),
      (m.map Prod.fst).Nodup → ((l.foldl (stepKV f) m).map Prod.fst).Nodup := by
  intro l
  induction l with
  | nil => intro m h; simpa using h
  | cons a t ih =>
    intro m h
    simp only [List.foldl_cons]
    apply ih
    cases hfa : f a with
    | none => simpa [stepKV, hfa] using h
    | some kv => simpa [stepKV, hfa] using nodup_keys_dictInsert m kv.1 kv.2 h

theorem mem_keys_of_lookup {β : Type} (m : List (String × β)) (k : String) (v : β)
    (h : m.lookup k = some v) : k ∈ m.map Prod.fst := by
  induction m with
  | nil => simp [List.lookup] at h
  | cons p t ih =>
    obtain ⟨a, b⟩ := p
    by_cases hk : (k == a) = true
    · simp [eq_of_beq hk]
    · have hk' : (k == a) = false := by simpa using hk
      simp only [List.lookup, hk'] at h
      simp [ih h]

theorem mem_dictInsert {β : Type} (k : String) (v : β) (q : String × β) :
    ∀ (m : List (String × β)), q ∈ dictInsert m k v → q = (k, v) ∨ q ∈ m := by
  intro m
  induction m with
  | nil => intro h; simpa [dictInsert] using h
  | cons p t ih =>
    intro h
    by_cases hp : (p.1 == k) = true
    · simp only [dictInsert, hp, if_pos, List.mem_cons] at h
      rcases h with h | h
      · exact Or.inl h
      · exact Or.inr (List.mem_cons_of_mem _ h)
    · have hp' : (p.1 == k) = false := by simpa using hp
      simp only [dictInsert, hp', Bool.false_eq_true, if_false, List.mem_cons] at h
      rcases h with h | h
      · exact Or.inr (by simp [h])
      · rcases ih h with h2 | h2
        · exact Or.inl h2
        · exact Or.inr (List.mem_cons_of_mem _ h2)

/-! Registry-level lemmas. -/

theorem lastOfReplicate {α : Type} (a : α) : ∀ n : Nat,
    (List.replicate n a).getLast? = if n = 0 then none else some a := by
  intro n
  induction n with
  | zero => simp
  | succ m ih =>
    cases m with
    | zero => simp [List.replicate]
    | succ m2 =>
      rw [List.replicate_succ, List.replicate_succ, List.getLast?_cons_cons,
        ← List.replicate_succ]
      simpa using ih

theorem filterMap_fontKV_filter (fs : FS) (dir_name k : String) :
    ∀ es : List DirEntry,
      ((es.filterMap (fontKV fs dir_name)).filter (fun kv => kv.1 == k)) =
        List.replicate ((es.filter (fun e => e.isDir && (e.name == k))).length)
          (k, processFont fs dir_name k) := by
  intro es
  induction es with
  | nil => simp
  | cons e t ih =>
    by_cases hdir : e.isDir
    · by_cases hname : (e.name == k) = true
      · have hkeq : e.name = k := eq_of_beq hname
        simp only [List.filterMap_cons, fontKV, hdir, if_pos, List.filter_cons, hname,
          Bool.and_true, List.length_cons, List.replicate_succ, hkeq, ih]
        simp [List.replicate_succ]
      · have hname' : (e.name == k) = false := by simpa using hname
        simp only [List.filterMap_cons, fontKV, hdir, if_pos, List.filter_cons, hname',
          Bool.and_false, Bool.false_eq_true, if_false, ih]
    · have hdir' : e.isDir = false := by simpa using hdir
      simp only [List.filterMap_cons, fontKV, hdir', Bool.false_eq_true, if_false,
        List.filter_cons, Bool.false_and, ih]

theorem filter_length_ne_zero_iff_any {α : Type} (p : α → Bool) (l : List α) :
    l.any p = true ↔ (l.filter p).length ≠ 0 := by
  rw [List.any_eq_true, Ne, List.length_eq_zero, List.filter_eq_nil_iff]
  push_neg
  constructor
  · rintro ⟨x, hx, hp⟩
    exact ⟨x, hx, by simp [hp]⟩
  · rintro ⟨x, hx, hp⟩
    exact ⟨x, hx, by simpa using hp⟩

theorem processCategory_lookup (fs : FS) (m : List (String × FontEntry)) (dir_name k : String) :
    (processCategory fs m dir_name).lookup k =
      if hasFontDir fs dir_name k then some (processFont fs dir_name k) else m.lookup k := by
  unfold processCategory hasFontDir
  by_cases hex : fs.pathExists (catPath dir_name)
  · simp only [hex, if_true, Bool.true_and]
    rw [show (fs.entries (catPath dir_name)).foldl (fontStep fs dir_name) m =
        (fs.entries (catPath dir_name)).foldl (stepKV (fontKV fs dir_name)) m from rfl]
    rw [lookup_foldl_stepKV, filterMap_fontKV_filter, lastOfReplicate]
    by_cases hany : (fs.entries (catPath dir_name)).any (fun e => e.isDir && e.name == k) = true
    · have hlen := (filter_length_ne_zero_iff_any _ _).mp hany
      simp [hany, hlen]
    · have hany' : ((fs.entries (catPath dir_name)).any (fun e => e.isDir && e.name == k)) = false := by
        simpa using hany
      have hlen : ((fs.entries (catPath dir_name)).filter (fun e => e.isDir && (e.name == k))).length = 0 := by
        by_contra hc
        exact hany ((filter_length_ne_zero_iff_any _ _).mpr hc)
      simp [hany', hlen]
  · have hex' : fs.pathExists (catPath dir_name) = false := by simpa using hex
    simp [hex']

theorem foldl_processCategory_lookup (fs : FS) (k : String) :
    ∀ (dl : List String) (m : List (String × FontEntry)),
      ((dl.foldl (processCategory fs) m).lookup k) =
        match (dl.filter (fun d => hasFontDir fs d k)).getLast? with
        | some d => some (processFont fs d k)
        | none => m.lookup k := by
  intro dl
  induction dl with
  | nil => intro m; simp
  | cons d t ih =>
    intro m
    simp only [List.foldl_cons, List.filter_cons]
    by_cases hd : hasFontDir fs d k = true
    · simp only [hd, if_pos]
      cases hrest : t.filter (fun d => hasFontDir fs d k) with
      | nil =>
        have hih := ih (processCategory fs m d)
        rw [hrest] at hih
        simp only [List.getLast?_nil] at hih
        simp only [List.getLast?_singleton]
        rw [hih, processCategory_lookup, if_pos hd]
      | cons b l2 =>
        have hih := ih (processCategory fs m d)
        rw [hrest] at hih
        rw [List.getLast?_cons_cons, hih]
        cases hgl : (b :: l2).getLast? with
        | none => simp [List.getLast?_eq_none_iff] at hgl
        | some c => simp [hgl]
    · have hd' : hasFontDir fs d k = false := by simpa using hd
      simp only [hd', Bool.false_eq_true, if_false]
      have hih := ih (processCategory fs m d)
      rw [hih]
      cases hgl : (t.filter (fun d => hasFontDir fs d k)).getLast? with
      | none => simp [processCategory_lookup, hd']
      | some c => simp

theorem buildRegistry_lookup (fs : FS) (k : String) :
    (buildRegistry fs).lookup k =
      ((DIRS.filter (fun d => hasFontDir fs d k)).getLast?).map
        (fun d => processFont fs d k) := by
  unfold buildRegistry
  rw [foldl_processCategory_lookup]
  cases hgl : (DIRS.filter (fun d => hasFontDir fs d k)).getLast? with
  | none => simp [List.lookup]
  | some c => simp

theorem nodup_keys_processCategory (fs : FS) (m : List (String × FontEntry)) (dir_name : String)
    (h : (m.map Prod.fst).Nodup) : ((processCategory fs m dir_name).map Prod.fst).Nodup := by
  unfold processCategory
  by_cases hex : fs.pathExists (catPath dir_name)
  · simp only [hex, if_true]
    exact nodup_keys_foldl_stepKV (fontKV fs dir_name) _ m h
  · simpa [hex] using h

theorem nodup_keys_foldl_cats (fs : FS) :
    ∀ (dl : List String) (m : List (String × FontEntry)),
      (m.map Prod.fst).Nodup → ((dl.foldl (processCategory fs) m).map Prod.fst).Nodup := by
  intro dl
  induction dl with
  | nil => intro m h; simpa using h
  | cons d t ih =>
    intro m h
    exact ih _ (nodup_keys_processCategory fs m d h)

theorem nodup_keys_buildRegistry (fs : FS) : ((buildRegistry fs).map Prod.fst).Nodup :=
  nodup_keys_foldl_cats fs DIRS [] (by simp)

/-! Metadata-reader lemmas. -/

theorem filterMap_lineKV_filter (entries : List String) (e : String) :
    ∀ ls : List String,
      ((ls.filterMap (lineKV entries)).filter (fun kv => kv.1 == e)) =
        (ls.filter (fun l => entries.find? (fun en => lineMatch en l) == some e)).map
          (fun l => (e, extractValue l)) := by
  intro ls
  induction ls with
  | nil => simp
  | cons l t ih =>
    cases hf : entries.find? (fun en => lineMatch en l) with
    | none => simp [lineKV, hf, List.filterMap_cons, List.filter_cons, ih]
    | some e0 =>
      by_cases he : (e0 == e) = true
      · have he2 : e0 = e := eq_of_beq he
        subst he2
        simp [lineKV, hf, List.filterMap_cons, List.filter_cons, ih]
      · have he' : (e0 == e) = false := by simpa using he
        simp [lineKV, hf, List.filterMap_cons, List.filter_cons, he', ih]

theorem md_lookup_char (entries : List String) (e : String) (ls : List String) :
    ((ls.foldl (mdStep entries) []).lookup e).getD "" =
      ((((ls.filter (fun l => entries.find? (fun en => lineMatch en l) == some e)).getLast?).map
        extractValue).getD "") := by
  rw [show ls.foldl (mdStep entries) [] = ls.foldl (stepKV (lineKV entries)) [] from rfl]
  rw [lookup_foldl_stepKV, filterMap_lineKV_filter, List.getLast?_map]
  cases hgl : (ls.filter (fun l => entries.find? (fun en => lineMatch en l) == some e)).getLast? with
  | none => simp [hgl, List.lookup]
  | some l0 => simp [hgl]

theorem get_metadata_entries_char (fs : FS) (p : FsPath) (entries : List String)
    (h : fs.pathExists p = true) :
    get_metadata_entries fs p entries =
      entries.map (fun e =>
        ((((fs.lines p).filter
            (fun l => entries.find? (fun en => lineMatch en l) == some e)).getLast?).map
          extractValue).getD "") := by
  unfold get_metadata_entries
  rw [if_pos h]
  exact List.map_eq_map_iff.mpr (fun e _ => md_lookup_char entries e (fs.lines p))

/-! Lemmas about stripping, for the quote-handling analysis. -/

theorem dropWhile_of_head_not {α : Type} (p : α → Bool) (l : List α)
    (h : ∀ c, l.head? = some c → p c = false) : l.dropWhile p = l := by
  cases l with
  | nil => rfl
  | cons c t =>
    have hc := h c rfl
    simp [List.dropWhile_cons, hc]

theorem dropWhile_replicate_append {α : Type} (p : α → Bool) (a : α) (hp : p a = true) :
    ∀ (n : Nat) (l : List α), (List.replicate n a ++ l).dropWhile p = l.dropWhile p := by
  intro n
  induction n with
  | zero => intro l; simp
  | succ m ih =>
    intro l
    simp [List.replicate_succ, List.dropWhile_cons, hp, ih]

theorem stripBoth_id (p : Char → Bool) (l : List Char)
    (hh : ∀ c, l.head? = some c → p c = false)
    (hl : ∀ c, l.getLast? = some c → p c = false) :
    stripBothChars p l = l := by
  unfold stripBothChars
  rw [dropWhile_of_head_not p l hh]
  rw [dropWhile_of_head_not p l.reverse
    (fun c hc => hl c (by rwa [List.head?_reverse] at hc))]
  exact List.reverse_reverse l

theorem stripBoth_replicate (p : Char → Bool) (q : Char) (hq : p q = true)
    (core : List Char) (hc : core ≠ [])
    (hh : ∀ c, core.head? = some c → p c = false)
    (hl : ∀ c, core.getLast? = some c → p c = false)
    (a b : Nat) :
    stripBothChars p (List.replicate a q ++ core ++ List.replicate b q) = core := by
  unfold stripBothChars
  rw [List.append_assoc, dropWhile_replicate_append p q hq a _]
  rw [dropWhile_of_head_not p (core ++ List.replicate b q)
    (fun c hcd => hh c (by rwa [List.head?_append_of_ne_nil core hc] at hcd))]
  rw [List.reverse_append, List.reverse_replicate]
  rw [dropWhile_replicate_append p q hq b _]
  rw [dropWhile_of_head_not p core.reverse
    (fun c hcd => hl c (by rwa [List.head?_reverse] at hcd))]
  exact List.reverse_reverse core

theorem head_of_skeleton (q : Char) (a b : Nat) (core : List Char) (hc : core ≠ []) :
    ∀ c, (List.replicate a q ++ core ++ List.replicate b q).head? = some c →
      c = q ∨ core.head? = some c := by
  intro c hcd
  cases a with
  | zero =>
    right
    rw [List.replicate_zero, List.nil_append,
      List.head?_append_of_ne_nil core hc] at hcd
    exact hcd
  | succ m =>
    left
    rw [List.replicate_succ, List.cons_append, List.cons_append, List.head?_cons] at hcd
    exact (Option.some_inj.mp hcd).symm

theorem last_of_skeleton (q : Char) (a b : Nat) (core : List Char) (hc : core ≠ []) :
    ∀ c, (List.replicate a q ++ core ++ List.replicate b q).getLast? = some c →
      c = q ∨ core.getLast? = some c := by
  intro c hcd
  rw [← List.head?_reverse, List.reverse_append, List.reverse_append,
    List.reverse_replicate, List.reverse_replicate] at hcd
  cases b with
  | zero =>
    right
    rw [List.replicate_zero, List.nil_append,
      List.head?_append_of_ne_nil core.reverse (by simpa using hc),
      List.head?_reverse] at hcd
    exact hcd
  | succ m =>
    left
    rw [List.replicate_succ, List.cons_append, List.head?_cons] at hcd
    exact (Option.some_inj.mp hcd).symm

theorem extractValue_quoted (a b : Nat) (core : List Char) (hc : core ≠ [])
    (hh : ∀ c, core.head? = some c → ((c == '"') = false ∧ c.isWhitespace = false))
    (hl : ∀ c, core.getLast? = some c → ((c == '"') = false ∧ c.isWhitespace = false)) :
    extractValue (String.mk ("name:".data ++
      (List.replicate a '"' ++ core ++ List.replicate b '"'))) = String.mk core := by
  have hafter : afterFirstColon (String.mk ("name:".data ++
      (List.replicate a '"' ++ core ++ List.replicate b '"'))) =
      String.mk (List.replicate a '"' ++ core ++ List.replicate b '"') := rfl
  unfold extractValue
  rw [hafter]
  have hstrip : pyStrip (String.mk (List.replicate a '"' ++ core ++ List.replicate b '"')) =
      String.mk (List.replicate a '"' ++ core ++ List.replicate b '"') := by
    unfold pyStrip
    refine congrArg String.mk (stripBoth_id _ _ ?_ ?_)
    · intro c hcd
      rcases head_of_skeleton '"' a b core hc c hcd with h | h
      · subst h; decide
      · exact (hh c h).2
    · intro c hcd
      rcases last_of_skeleton '"' a b core hc c hcd with h | h
      · subst h; decide
      · exact (hl c h).2
  rw [hstrip]
  unfold pyStripQuotes
  exact congrArg String.mk
    (stripBoth_replicate _ '"' (by decide) core hc
      (fun c h => (hh c h).1) (fun c h => (hl c h).1) a b)

/-! Link-extractor and registry-invariant lemmas. -/

theorem isPrefixOf_append_self {α : Type} [BEq α] [LawfulBEq α] :
    ∀ (l1 l2 : List α), List.isPrefixOf l1 (l1 ++ l2) = true := by
  intro l1
  induction l1 with
  | nil => intro l2; simp [List.isPrefixOf]
  | cons a t ih =>
    intro l2
    simp [List.isPrefixOf, List.cons_append, ih]

theorem extractFromDoc_eq_spec : ∀ doc : List Anchor,
    extractFromDoc doc = specFirstGithubHref doc := by
  intro doc
  induction doc with
  | nil => rfl
  | cons a t ih =>
    cases ha : a.href with
    | none => simp [extractFromDoc, specFirstGithubHref, ha, List.filterMap_cons, ← ih]
    | some h =>
      by_cases hg : strContains h "github.com" = true
      · simp [extractFromDoc, specFirstGithubHref, ha, hg, List.filterMap_cons,
          List.filter_cons]
      · have hg' : strContains h "github.com" = false := by simpa using hg
        simp [extractFromDoc, specFirstGithubHref, ha, hg', List.filterMap_cons,
          List.filter_cons, ← ih]

theorem strContains_of_extract (fs : FS) (p : FsPath) (s : String)
    (h : extract_github_link fs p = some s) : strContains s "github.com" = true := by
  unfold extract_github_link extractFromDoc at h
  rcases hl : ((fs.htmlDoc p).filterMap Anchor.href).filter
      (fun h => strContains h "github.com") with _ | ⟨b, t⟩
  · rw [hl] at h; simp at h
  · rw [hl] at h
    have hb : b = s := by simpa using h
    subst hb
    have hmem : b ∈ ((fs.htmlDoc p).filterMap Anchor.href).filter
        (fun h => strContains h "github.com") := by
      rw [hl]; exact List.mem_cons_self b t
    exact (List.mem_filter.mp hmem).2

theorem foldl_fontStep_filter (fs : FS) (dir_name : String) :
    ∀ (es : List DirEntry) (m : List (String × FontEntry)),
      es.foldl (fontStep fs dir_name) m =
        (es.filter (fun e => e.isDir)).foldl (fontStep fs dir_name) m := by
  intro es
  induction es with
  | nil => intro m; rfl
  | cons e t ih =>
    intro m
    by_cases hd : e.isDir
    · simp only [List.filter_cons, hd, if_pos, List.foldl_cons, ih]
    · have hd' : e.isDir = false := by simpa using hd
      have hstep : fontStep fs dir_name m e = m := by
        simp [fontStep, stepKV, fontKV, hd']
      simp only [List.filter_cons, hd', Bool.false_eq_true, if_false, List.foldl_cons,
        hstep, ih]

theorem foldl_processCategory_filter (fs : FS) :
    ∀ (dl : List String) (m : List (String × FontEntry)),
      dl.foldl (processCategory fs) m =
        (dl.filter (fun d => fs.pathExists (catPath d))).foldl (processCategory fs) m := by
  intro dl
  induction dl with
  | nil => intro m; rfl
  | cons d t ih =>
    intro m
    by_cases hex : fs.pathExists (catPath d)
    · simp only [List.filter_cons, hex, if_pos, List.foldl_cons, ih]
    · have hex' : fs.pathExists (catPath d) = false := by simpa using hex
      have hskip : processCategory fs m d = m := by simp [processCategory, hex']
      simp only [List.filter_cons, hex', Bool.false_eq_true, if_false, List.foldl_cons,
        hskip, ih]

theorem processFont_link_good (fs : FS) (dir_name font_name : String) :
    (processFont fs dir_name font_name).link = "" ∨
      strContains (processFont fs dir_name font_name).link "github.com" = true := by
  unfold processFont
  cases hp : get_html_path fs dir_name font_name with
  | none => left; rfl
  | some p =>
    cases he : extract_github_link fs p with
    | none => left; simp [he]
    | some s =>
      right
      simpa [he] using strContains_of_extract fs p s he

theorem mem_foldl_stepKV_good {α β : Type} (f : α → Option (String × β)) (P : β → Prop)
    (hf : ∀ a kv, f a = some kv → P kv.2) :
    ∀ (l : List α) (m : List (String × β)), (∀ q ∈ m, P q.2) →
      ∀ q ∈ l.foldl (stepKV f) m, P q.2 := by
  intro l
  induction l with
  | nil => intro m hm q hq; exact hm q hq
  | cons a t ih =>
    intro m hm q hq
    refine ih (stepKV f m a) ?_ q hq
    intro r hr
    cases hfa : f a with
    | none => exact hm r (by simpa [stepKV, hfa] using hr)
    | some kv =>
      rcases mem_dictInsert kv.1 kv.2 r m (by simpa [stepKV, hfa] using hr) with h | h
      · have := hf a kv hfa
        rw [h]
        exact this
      · exact hm r h

theorem mem_buildRegistry_good (fs : FS) (P : FontEntry → Prop)
    (hP : ∀ dir_name font_name, P (processFont fs dir_name font_name)) :
    ∀ q ∈ buildRegistry fs, P q.2 := by
  unfold buildRegistry
  have step : ∀ (dl : List String) (m : List (String × FontEntry)), (∀ q ∈ m, P q.2) →
      ∀ q ∈ dl.foldl (processCategory fs) m, P q.2 := by
    intro dl
    induction dl with
    | nil => intro m hm q hq; exact hm q hq
    | cons d t ih =>
      intro m hm q hq
      refine ih (processCategory fs m d) ?_ q hq
      intro r hr
      unfold processCategory at hr
      by_cases hex : fs.pathExists (catPath d)
      · rw [if_pos hex] at hr
        refine mem_foldl_stepKV_good (fontKV fs d) P ?_ _ m hm r hr
        intro e kv hkv
        unfold fontKV at hkv
        by_cases hdir : e.isDir
        · rw [if_pos hdir, Option.some_inj] at hkv
          rw [← hkv]
          exact hP d e.name
        · rw [if_neg hdir] at hkv
          exact absurd hkv (by simp)
      · rw [if_neg hex] at hr
        exact hm r hr
  exact step DIRS [] (by simp)

/-! Concrete filesystems used to instantiate the claims. -/

/-- A filesystem holding a single text file at `p` with the given lines,
read without error. -/
def mdFS (p : FsPath) (ls : List String) : FS where
  pathExists := fun q => q == p
  entries := fun _ => []
  htmlDoc := fun _ => []
  lines := fun q => if q == p then ls else []
  readErr := fun _ => false

/-- A filesystem holding a single text file at `p` whose read yields the
given lines and then fails with an exception. -/
def mdFSErr (p : FsPath) (ls : List String) : FS where
  pathExists := fun q => q == p
  entries := fun _ => []
  htmlDoc := fun _ => []
  lines := fun q => if q == p then ls else []
  readErr := fun q => q == p

/-- A filesystem holding a single HTML document at `p`. -/
def htmlFS (p : FsPath) (doc : List Anchor) : FS where
  pathExists := fun q => q == p
  entries := fun _ => []
  htmlDoc := fun q => if q == p then doc else []
  lines := fun _ => []
  readErr := fun _ => false

/-- The example document: a non-GitHub anchor followed by a GitHub one. -/
def exDoc : List Anchor :=
  [{ href := some "https://example.com" }, { href := some "https://github.com/org/repo" }]

/-- A filesystem on which both candidate description files of the font
`foo` in category `ofl` exist. -/
def bothFS : FS where
  pathExists := fun q => q == articlePath "ofl" "foo" || q == descPath "ofl" "foo"
  entries := fun _ => []
  htmlDoc := fun _ => []
  lines := fun _ => []
  readErr := fun _ => false

/-- A filesystem with the categories `ofl` and `apache` both containing a
font directory `foo` (and nothing else). -/
def twoCatFS : FS where
  pathExists := fun q => q == catPath "ofl" || q == catPath "apache"
  entries := fun q =>
    if q == catPath "ofl" || q == catPath "apache" then [{ name := "foo", isDir := true }]
    else []
  htmlDoc := fun _ => []
  lines := fun _ => []
  readErr := fun _ => false

/-- A filesystem where the category `ofl` is absent and `apache` holds one
plain file and one font directory `bar`. -/
def skipFS : FS where
  pathExists := fun q => q == catPath "apache"
  entries := fun q =>
    if q == catPath "apache" then
      [{ name := "notes.txt", isDir := false }, { name := "bar", isDir := true }]
    else []
  htmlDoc := fun _ => []
  lines := fun _ => []
  readErr := fun _ => false

/-- A small complete tree: category `ofl` with font `foo`, a description
file containing one GitHub anchor, and a metadata file with both fields. -/
def fullFS : FS where
  pathExists := fun q =>
    q == catPath "ofl" || q == descPath "ofl" "foo" || q == metadataPath "ofl" "foo"
  entries := fun q => if q == catPath "ofl" then [{ name := "foo", isDir := true }] else []
  htmlDoc := fun q =>
    if q == descPath "ofl" "foo" then [{ href := some "https://github.com/org/repo" }] else []
  lines := fun q =>
    if q == metadataPath "ofl" "foo" then
      ["name: \"Example Font\"", "display_name: \"Example\""]
    else []
  readErr := fun _ => false

/-! Claims. -/

/-- Claim C1 (counterexample): the Metadata Reader does not keep the value
of the first matching line.  For a metadata file whose lines are
`name:"A"` and then `name:"B"`, requesting `["name"]` yields `["B"]`, not
the first-line value `["A"]`: the second matching line overwrote the
recorded value. -/
theorem C1_counterexample :
    get_metadata_entries (mdFS (metadataPath "ofl" "foo") ["name:\"A\"", "name:\"B\""])
        (metadataPath "ofl" "foo") ["name"] = ["B"] ∧
    get_metadata_entries (mdFS (metadataPath "ofl" "foo") ["name:\"A\"", "name:\"B\""])
        (metadataPath "ofl" "foo") ["name"] ≠ ["A"] := by
  constructor
  · decide
  · decide

/-- Claim C1 (amended): for every readable metadata file, the value the
Metadata Reader records for a requested field is the one extracted from
the LAST line attributed to that field — each later matching line
overwrites the earlier value (a line is attributed to the first requested
field whose name immediately followed by a colon prefixes it); fields
with no attributed line get the empty string, in requested order. -/
theorem C1_last_match_wins (fs : FS) (p : FsPath) (entries : List String)
    (h : fs.pathExists p = true) :
    get_metadata_entries fs p entries =
      entries.map (fun e =>
        ((((fs.lines p).filter
            (fun l => entries.find? (fun en => lineMatch en l) == some e)).getLast?).map
          extractValue).getD "") :=
  get_metadata_entries_char fs p entries h

/-- Witness for C1: the two-line file `name:"A"`, `name:"B"` satisfies the
hypothesis and the characterization, and the recorded value is `B`. -/
theorem C1_witness :
    (mdFS (metadataPath "ofl" "foo") ["name:\"A\"", "name:\"B\""]).pathExists
        (metadataPath "ofl" "foo") = true ∧
    get_metadata_entries (mdFS (metadataPath "ofl" "foo") ["name:\"A\"", "name:\"B\""])
        (metadataPath "ofl" "foo") ["name"] =
      ["name"].map (fun e =>
        (((((mdFS (metadataPath "ofl" "foo") ["name:\"A\"", "name:\"B\""]).lines
              (metadataPath "ofl" "foo")).filter
            (fun l => ["name"].find? (fun en => lineMatch en l) == some e)).getLast?).map
          extractValue).getD "") :=
  ⟨by decide,
    C1_last_match_wins (mdFS (metadataPath "ofl" "foo") ["name:\"A\"", "name:\"B\""])
      (metadataPath "ofl" "foo") ["name"] (by decide)⟩

/-- Claim C2: the Link Extractor returns the hyperlink target of the first
anchor in document order that carries a target containing "github.com"
(it agrees with the spec-side recursion `specFirstGithubHref`, which also
yields the empty result when no anchor qualifies), and on the document
with anchors for `https://example.com` and `https://github.com/org/repo`
it returns exactly `"https://github.com/org/repo"`. -/
theorem C2_first_github_link :
    (∀ (fs : FS) (p : FsPath),
      extract_github_link fs p = specFirstGithubHref (fs.htmlDoc p)) ∧
    extract_github_link (htmlFS (descPath "ofl" "foo") exDoc) (descPath "ofl" "foo") =
      some "https://github.com/org/repo" := by
  constructor
  · intro fs p
    exact extractFromDoc_eq_spec (fs.htmlDoc p)
  · decide

/-- Claim C3: the Path Resolver returns the article path whenever the
article file exists (in particular when both candidates exist), otherwise
the description path when that file exists, and otherwise the empty
result — it is a total function, so absence never raises. -/
theorem C3_path_resolver (fs : FS) (dir_name font_name : String) :
    (fs.pathExists (articlePath dir_name font_name) = true →
      get_html_path fs dir_name font_name = some (articlePath dir_name font_name)) ∧
    (fs.pathExists (articlePath dir_name font_name) = false →
      fs.pathExists (descPath dir_name font_name) = true →
      get_html_path fs dir_name font_name = some (descPath dir_name font_name)) ∧
    (fs.pathExists (articlePath dir_name font_name) = false →
      fs.pathExists (descPath dir_name font_name) = false →
      get_html_path fs dir_name font_name = none) := by
  refine ⟨?_, ?_, ?_⟩
  · intro h1
    simp [get_html_path, h1]
  · intro h1 h2
    simp [get_html_path, h1, h2]
  · intro h1 h2
    simp [get_html_path, h1, h2]

/-- Witness for C3: on a filesystem where both the article and the
description file of `ofl/foo` exist, the resolver selects the article. -/
theorem C3_witness :
    bothFS.pathExists (articlePath "ofl" "foo") = true ∧
    get_html_path bothFS "ofl" "foo" = some (articlePath "ofl" "foo") :=
  ⟨by decide, (C3_path_resolver bothFS "ofl" "foo").1 (by decide)⟩

/-- Claim C4: when `d` is the last category in the fixed `DIRS` order that
exists and contains a font subdirectory named `k` (in particular, the
later of any two categories sharing that name, with none after them), the
final registry holds exactly one entry under `k`, namely the one produced
while processing `d` (last-write-wins, no merging). -/
theorem C4_last_write_wins (fs : FS) (k d : String)
    (h : (DIRS.filter (fun c => hasFontDir fs c k)).getLast? = some d) :
    (buildRegistry fs).lookup k = some (processFont fs d k) ∧
    ((buildRegistry fs).map Prod.fst).count k = 1 := by
  have hl : (buildRegistry fs).lookup k = some (processFont fs d k) := by
    rw [buildRegistry_lookup, h]
    rfl
  refine ⟨hl, ?_⟩
  exact List.count_eq_one_of_mem (nodup_keys_buildRegistry fs)
    (mem_keys_of_lookup _ _ _ hl)

/-- Witness for C4: with `ofl` and `apache` both containing the font
directory `foo`, the last containing category is `apache`, the final
registry maps `foo` to the entry built from `apache`, and `foo` occurs
exactly once among the keys. -/
theorem C4_witness :
    (DIRS.filter (fun c => hasFontDir twoCatFS c "foo")).getLast? = some "apache" ∧
    ((buildRegistry twoCatFS).lookup "foo" = some (processFont twoCatFS "apache" "foo") ∧
      ((buildRegistry twoCatFS).map Prod.fst).count "foo" = 1) :=
  ⟨by decide, C4_last_write_wins twoCatFS "foo" "apache" (by decide)⟩

/-- Claim C5: when the metadata file exists but an exception interrupts
the read, the Metadata Reader still returns a full-length list: the
result equals the one obtained on an error-free filesystem (the exception
is swallowed, not propagated), every field's value comes from the lines
accumulated before the failure, and an immediate failure (no lines read)
yields the all-empty default list. -/
theorem C5_exception_swallowed (fs : FS) (p : FsPath) (entries : List String)
    (h1 : fs.pathExists p = true) (_h2 : fs.readErr p = true) :
    (get_metadata_entries fs p entries).length = entries.length ∧
    get_metadata_entries fs p entries =
      get_metadata_entries { fs with readErr := fun _ => false } p entries ∧
    get_metadata_entries fs p entries =
      entries.map (fun e =>
        ((((fs.lines p).filter
            (fun l => entries.find? (fun en => lineMatch en l) == some e)).getLast?).map
          extractValue).getD "") ∧
    (fs.lines p = [] →
      get_metadata_entries fs p entries = List.replicate entries.length "") := by
  refine ⟨?_, rfl, get_metadata_entries_char fs p entries h1, ?_⟩
  · unfold get_metadata_entries
    rw [if_pos h1]
    simp
  · intro hln
    unfold get_metadata_entries
    rw [if_pos h1, hln]
    simp [List.lookup, List.map_const']

/-- Witness for C5: a file whose read yields one `name` line and then
fails; the reader returns the accumulated value and swallows the error. -/
theorem C5_witness :
    (mdFSErr (metadataPath "ofl" "foo") ["name:\"A\""]).pathExists
        (metadataPath "ofl" "foo") = true ∧
    (mdFSErr (metadataPath "ofl" "foo") ["name:\"A\""]).readErr
        (metadataPath "ofl" "foo") = true ∧
    (get_metadata_entries (mdFSErr (metadataPath "ofl" "foo") ["name:\"A\""])
        (metadataPath "ofl" "foo") ["name", "display_name"]).length =
      (["name", "display_name"] : List String).length :=
  ⟨by decide, by decide,
    (C5_exception_swallowed (mdFSErr (metadataPath "ofl" "foo") ["name:\"A\""])
      (metadataPath "ofl" "foo") ["name", "display_name"] (by decide) (by decide)).1⟩

/-- Claim C6: for every path and requested field list, the Metadata Reader
returns a list of the same length as the request, whose values stand in
the requested order (each position holds the value recorded for the field
requested at that position); for a non-existent path it returns the
all-empty list outright. -/
theorem C6_shape (fs : FS) (p : FsPath) (entries : List String) :
    (get_metadata_entries fs p entries).length = entries.length ∧
    (fs.pathExists p = true →
      get_metadata_entries fs p entries =
        entries.map (fun e =>
          ((((fs.lines p).filter
              (fun l => entries.find? (fun en => lineMatch en l) == some e)).getLast?).map
            extractValue).getD "")) ∧
    (fs.pathExists p = false →
      get_metadata_entries fs p entries = List.replicate entries.length "") := by
  refine ⟨?_, fun h => get_metadata_entries_char fs p entries h, ?_⟩
  · unfold get_metadata_entries
    by_cases h : fs.pathExists p <;> simp [h]
  · intro h
    unfold get_metadata_entries
    rw [if_neg (by simp [h])]

/-- Witness for C6: querying a path that is not the one stored file gives
the all-empty two-element list. -/
theorem C6_witness :
    (mdFS (metadataPath "ofl" "foo") []).pathExists (metadataPath "ofl" "bar") = false ∧
    get_metadata_entries (mdFS (metadataPath "ofl" "foo") []) (metadataPath "ofl" "bar")
        ["name", "display_name"] =
      List.replicate (["name", "display_name"] : List String).length "" :=
  ⟨by decide,
    (C6_shape (mdFS (metadataPath "ofl" "foo") []) (metadataPath "ofl" "bar")
      ["name", "display_name"]).2.2 (by decide)⟩

/-- Claim C7 (counterexample): quote characters nested deeper than one
layer are NOT preserved.  For the line `name:""X""` the recorded value is
`X` — both layers were stripped — not the claimed `"X"`. -/
theorem C7_counterexample :
    get_metadata_entries (mdFS (metadataPath "ofl" "foo") ["name:\"\"X\"\""])
        (metadataPath "ofl" "foo") ["name"] = ["X"] ∧
    get_metadata_entries (mdFS (metadataPath "ofl" "foo") ["name:\"\"X\"\""])
        (metadataPath "ofl" "foo") ["name"] ≠ ["\"X\""] := by
  constructor
  · decide
  · decide

/-- Claim C7 (amended): the recorded value is the substring after the
first colon, with surrounding whitespace stripped and then ALL leading
and trailing double-quote characters removed (no matched-pair check):
for any numbers `a`, `b` of enclosing quotes around a core that itself
neither starts nor ends with a quote or whitespace, the recorded value is
exactly the core. -/
theorem C7_strip_all_quotes (a b : Nat) (core : List Char) (hc : core ≠ [])
    (hh : ∀ c, core.head? = some c → ((c == '"') = false ∧ c.isWhitespace = false))
    (hl : ∀ c, core.getLast? = some c → ((c == '"') = false ∧ c.isWhitespace = false)) :
    get_metadata_entries
        (mdFS (metadataPath "ofl" "foo")
          [String.mk ("name:".data ++ (List.replicate a '"' ++ core ++ List.replicate b '"'))])
        (metadataPath "ofl" "foo") ["name"] = [String.mk core] := by
  have hv := extractValue_quoted a b core hc hh hl
  have hm : lineMatch "name"
      (String.mk ("name:".data ++ (List.replicate a '"' ++ core ++ List.replicate b '"'))) =
      true :=
    isPrefixOf_append_self "name:".data _
  unfold get_metadata_entries
  rw [if_pos (by simp [mdFS])]
  simp only [mdFS, beq_self_eq_true, if_pos, List.foldl_cons, List.foldl_nil]
  simp only [mdStep, stepKV, lineKV, List.find?, hm]
  simp [dictInsert, List.lookup]
  rw [List.append_assoc] at hv
  exact hv

/-- Witness for C7: two layers of quotes around the single character `X`
satisfy the hypotheses, and the recorded value is `X`. -/
theorem C7_witness :
    (['X'] : List Char) ≠ [] ∧
    get_metadata_entries
        (mdFS (metadataPath "ofl" "foo")
          [String.mk ("name:".data ++
            (List.replicate 2 '"' ++ ['X'] ++ List.replicate 2 '"'))])
        (metadataPath "ofl" "foo") ["name"] = [String.mk ['X']] :=
  ⟨by decide,
    C7_strip_all_quotes 2 2 ['X'] (by decide)
      (fun c hcd => by
        have hcx : c = 'X' := by simpa using hcd.symm
        subst hcx
        exact ⟨by decide, by decide⟩)
      (fun c hcd => by
        have hcx : c = 'X' := by simpa using hcd.symm
        subst hcx
        exact ⟨by decide, by decide⟩)⟩

/-- Claim C8: a category whose directory is absent is skipped (the
registry is unchanged by it and the remaining categories are still
processed: the whole build equals the fold over just the existing
categories), and within an existing category the non-directory entries
are ignored (the fold ranges over the directory entries only). -/
theorem C8_skip_missing (fs : FS) (dir_name : String) (m : List (String × FontEntry)) :
    (fs.pathExists (catPath dir_name) = false → processCategory fs m dir_name = m) ∧
    (fs.pathExists (catPath dir_name) = true →
      processCategory fs m dir_name =
        ((fs.entries (catPath dir_name)).filter (fun e => e.isDir)).foldl
          (fontStep fs dir_name) m) ∧
    buildRegistry fs =
      (DIRS.filter (fun d => fs.pathExists (catPath d))).foldl (processCategory fs) [] := by
  refine ⟨?_, ?_, ?_⟩
  · intro h
    simp [processCategory, h]
  · intro h
    simp only [processCategory, h, if_true]
    exact foldl_fontStep_filter fs dir_name _ m
  · unfold buildRegistry
    exact foldl_processCategory_filter fs DIRS []

/-- Witness for C8: with `ofl` absent, processing it leaves the registry
untouched; with `apache` present, its plain file `notes.txt` contributes
nothing while the directory `bar` does. -/
theorem C8_witness :
    skipFS.pathExists (catPath "ofl") = false ∧
    processCategory skipFS [] "ofl" = [] ∧
    skipFS.pathExists (catPath "apache") = true ∧
    processCategory skipFS [] "apache" =
      ((skipFS.entries (catPath "apache")).filter (fun e => e.isDir)).foldl
        (fontStep skipFS "apache") [] :=
  ⟨by decide, (C8_skip_missing skipFS "ofl" []).1 (by decide), by decide,
    (C8_skip_missing skipFS "apache" []).2.1 (by decide)⟩

/-- Claim C9: every font entry carries the three string fields of
`FontEntry`; its `link` field is exactly the empty string when the Path
Resolver finds neither file, and likewise when a file is found but the
Link Extractor yields no matching anchor; and the entry is still created
(the registry resolves the font's key) whenever the font directory is
present in a category of `DIRS`. -/
theorem C9_entry_shape (fs : FS) (dir_name font_name : String) :
    (get_html_path fs dir_name font_name = none →
      (processFont fs dir_name font_name).link = "") ∧
    (∀ p, get_html_path fs dir_name font_name = some p →
      extract_github_link fs p = none →
      (processFont fs dir_name font_name).link = "") ∧
    (dir_name ∈ DIRS → hasFontDir fs dir_name font_name = true →
      ((buildRegistry fs).lookup font_name).isSome = true) := by
  refine ⟨?_, ?_, ?_⟩
  · intro h
    simp [processFont, h]
  · intro p hp he
    simp [processFont, hp, he]
  · intro hd hf
    rw [buildRegistry_lookup]
    have hmem : dir_name ∈ DIRS.filter (fun c => hasFontDir fs c font_name) :=
      List.mem_filter.mpr ⟨hd, hf⟩
    rw [Option.isSome_map']
    exact List.getLast?_isSome.mpr (List.ne_nil_of_mem hmem)

/-- Witness for C9: on the filesystem with no HTML files at all, the font
`bar` of `apache` resolves no description file, gets the empty link, and
its entry is still present in the registry. -/
theorem C9_witness :
    get_html_path skipFS "apache" "bar" = none ∧
    (processFont skipFS "apache" "bar").link = "" ∧
    ("apache" ∈ DIRS ∧ hasFontDir skipFS "apache" "bar" = true ∧
      ((buildRegistry skipFS).lookup "bar").isSome = true) :=
  ⟨by decide, (C9_entry_shape skipFS "apache" "bar").1 (by decide),
    by decide, by decide,
    (C9_entry_shape skipFS "apache" "bar").2.2 (by decide) (by decide)⟩

/-- Claim C10: in the final registry every `link` field is either the
empty string or a string containing the substring "github.com"; no entry
carries a non-empty link without that substring. -/
theorem C10_link_invariant (fs : FS) (k : String) (v : FontEntry)
    (h : (k, v) ∈ buildRegistry fs) :
    v.link = "" ∨ strContains v.link "github.com" = true := by
  have hg := mem_buildRegistry_good fs
    (fun w => w.link = "" ∨ strContains w.link "github.com" = true)
    (fun d f => processFont_link_good fs d f) (k, v) h
  simpa using hg

/-- Witness for C10: the complete example tree produces the entry `foo`
whose link is a GitHub URL, and the invariant holds of it. -/
theorem C10_witness :
    ("foo", processFont fullFS "ofl" "foo") ∈ buildRegistry fullFS ∧
    ((processFont fullFS "ofl" "foo").link = "" ∨
      strContains (processFont fullFS "ofl" "foo").link "github.com" = true) :=
  ⟨by decide,
    C10_link_invariant fullFS "foo" (processFont fullFS "ofl" "foo") (by decide)⟩
